import Mathlib

/-!
Shallow embedding of the `init` command of the create-bevy scaffolding CLI
(`src/commands/init.ts`).  Paths are modelled as lists of components
(`path.join` appends a component, `path.dirname` drops the last one,
`path.relative` walks off the common prefix).  The destination filesystem is
an association list from paths to nodes; prompts, file writes and spawned
commands are recorded as an ordered event list, so that ordering claims
("fails before any write") can be stated.  External platform calls
(`path.resolve`, `lookpath`, reading the template directory) are inputs of
the run, bundled in a `World`.
-/

set_option autoImplicit false

namespace CreateBevy

/-- A filesystem path, as a list of components. `path.join cwd f` is `cwd ++ [f]`. -/
abbrev FsPath := List String

/-- What `fs.stat`/`fs.readdir` report for an existing path: a plain file, a
symbolic link, or a directory with its list of child names. -/
inductive FSNode where
  | file
  | symlink
  | dir (children : List String)
  deriving DecidableEq

/-- The (destination-relevant) filesystem, as an association list. -/
abbrev FS := List (FsPath × FSNode)

/-- Association-list lookup of a path. -/
def lookupFS : FS → FsPath → Option FSNode
  | [], _ => none
  | (q, n) :: rest, p => if q = p then some n else lookupFS rest p

/-- `src/commands/init.ts` lines 216-218: an existing path is pushed onto
`existingPaths` when `stat.isFile() || stat.isSymbolicLink() ||
(await fs.readdir(filePath)).length > 0`; a missing path is skipped. -/
def isConflict (fs : FS) (p : FsPath) : Bool :=
  match lookupFS fs p with
  | none => false
  | some FSNode.file => true
  | some FSNode.symlink => true
  | some (FSNode.dir children) => decide (0 < children.length)

/-- Node's `path.relative(base, p)`: drop the common prefix, then one `..`
per remaining component of `base`, followed by the remainder of `p`. -/
def relativePath : FsPath → FsPath → FsPath
  | [], p => p
  | b :: bs, [] => (b :: bs).map fun _ => ".."
  | b :: bs, c :: cs =>
    if b = c then relativePath bs cs
    else ((b :: bs).map fun _ => "..") ++ c :: cs

/-- `init.ts` lines 200-212: the four always-checked files, then one path per
entry of `fs.readdir(templateDir)`. -/
def checkedPaths (cwd : FsPath) (templateEntries : List String) : List FsPath :=
  [cwd ++ ["package.json"], cwd ++ ["package-lock.json"],
   cwd ++ ["tsconfig.json"], cwd ++ [".gitignore"]]
  ++ templateEntries.map fun f => cwd ++ [f]

/-- `init.ts` lines 214-222: the `existingPaths` array in check order, each
conflicting checked path contributing `path.relative(process.cwd(), filePath)`. -/
def conflictRelPaths (fs : FS) (invocationDir cwd : FsPath) (templateEntries : List String) : List FsPath :=
  (checkedPaths cwd templateEntries).filterMap fun p =>
    if isConflict fs p then some (relativePath invocationDir p) else none

/-- Boolean "is a non-empty prefix-wise match": `isPrefixB needle hay`. -/
def isPrefixB : List Char → List Char → Bool
  | [], _ => true
  | _ :: _, [] => false
  | n :: ns, h :: hs => n = h && isPrefixB ns hs

/-- `occursIn needle hay`: the needle occurs as a contiguous segment. -/
def occursIn (needle : List Char) : List Char → Bool
  | [] => isPrefixB needle []
  | h :: hs => isPrefixB needle (h :: hs) || occursIn needle hs

/-- JavaScript `haystack.includes(needle)` on strings. -/
def strIncludes (s sub : String) : Bool := occursIn sub.data s.data

/-- `enum InitMode { None = "none", Game = "game", Package = "package" }`. -/
inductive InitMode where
  | none
  | game
  | package
  deriving DecidableEq

/-- The string value of an `InitMode` member. -/
def InitMode.str : InitMode → String
  | InitMode.none => "none"
  | InitMode.game => "game"
  | InitMode.package => "package"

/-- `enum PackageManager { NPM = "npm", Yarn = "yarn", PNPM = "pnpm" }`. -/
inductive PackageManager where
  | npm
  | yarn
  | pnpm
  deriving DecidableEq

/-- `enum GitProtocol { HTTPS = "https", SSH = "ssh" }`. -/
inductive GitProtocol where
  | https
  | ssh
  deriving DecidableEq

/-- The per-manager command strings (`packageManagerCommands` in `init.ts`). -/
structure PackageManagerCommands where
  init : String
  devInstall : String
  build : String
  deriving DecidableEq

/-- `init.ts` lines 57-75. -/
def packageManagerCommands : PackageManager → PackageManagerCommands
  | PackageManager.npm =>
    { init := "npm init -y", devInstall := "npm install --silent -D", build := "npm run build" }
  | PackageManager.yarn =>
    { init := "yarn init -y", devInstall := "yarn add --silent -D", build := "yarn run build" }
  | PackageManager.pnpm =>
    { init := "pnpm init", devInstall := "pnpm install --silent -D", build := "pnpm run build" }

/-- `init.ts` lines 280-285: the install command used in step 4. -/
def installCmd : PackageManager → String
  | PackageManager.npm => "npm install --silent"
  | PackageManager.yarn => "yarn install --silent"
  | PackageManager.pnpm => "pnpm install --silent"

/-- `const GIT_IGNORE = ["/node_modules", "/out", "/include", "*.tsbuildinfo"]`. -/
def GIT_IGNORE : List String := ["/node_modules", "/out", "/include", "*.tsbuildinfo"]

/-- JavaScript `Array.prototype.join("\n")`. -/
def joinNL : List String → String
  | [] => ""
  | [r] => r
  | r :: rs => r ++ "\n" ++ joinNL rs

/-- `init.ts` line 271: the required rules not already present as substrings
of the existing `.gitignore` content. -/
def requiredRules (existing : String) : List String :=
  GIT_IGNORE.filter fun rule => !(strIncludes existing rule)

/-- `init.ts` lines 270-274: content of `.gitignore` after the git-init step,
as a function of its prior content (a missing file reads as `""`). -/
def gitIgnoreResult (existing : String) : String :=
  if 0 < (requiredRules existing).length then
    existing ++ "\n" ++ joinNL (requiredRules existing) ++ "\n"
  else existing

/-- The outcome `Promise.allSettled` reports for one `lookpath` probe:
fulfilled with "found a path or not", or rejected. -/
inductive ProbeOutcome where
  | fulfilled (found : Bool)
  | rejected
  deriving DecidableEq

/-- `init.ts` line 125: `v.status === "fulfilled" ? v.value !== undefined : true`. -/
def settleAvail : ProbeOutcome → Bool
  | ProbeOutcome.fulfilled found => found
  | ProbeOutcome.rejected => true

/-- `init.ts` lines 129-131: the fatal message when git is unavailable. -/
def gitRequiredMsg : String :=
  "Git is required but not found. Please install Git from https://git-scm.com/ and try again."

/-- One entry of `repositories.json` (`interface RepositoryConfig`); the
`destination` is a relative path, modelled in components. -/
structure RepositoryConfig where
  name : String
  https : String
  ssh : String
  destination : FsPath
  templates : Option (List String)
  deriving DecidableEq

/-- `interface RepositoriesConfig`. -/
structure RepositoriesConfig where
  repositories : List RepositoryConfig
  deriving DecidableEq

/-- `init.ts` lines 143-151: a missing file (`none`) or a malformed one
(`some none`) both leave `repoConfig` undefined. -/
def loadRepoConfig : Option (Option RepositoriesConfig) → Option RepositoriesConfig
  | Option.none => none
  | some Option.none => none
  | some (some c) => some c

/-- `init.ts` line 152: `repoConfig && repoConfig.repositories && ... .length > 0`. -/
def hasRepositories : Option RepositoriesConfig → Bool
  | none => false
  | some c => decide (0 < c.repositories.length)

/-- `init.ts` lines 328-335: keep an entry when its `templates` list is
absent or empty, or includes the active template's string value. -/
def shouldClone (repo : RepositoryConfig) (template : InitMode) : Bool :=
  match repo.templates with
  | none => true
  | some ts => if ts.length = 0 then true else ts.contains template.str

/-- `init.ts` line 328: `repoConfig.repositories.filter(...)`. -/
def repositoriesToClone (c : RepositoriesConfig) (template : InitMode) : List RepositoryConfig :=
  c.repositories.filter fun r => shouldClone r template

/-- `init.ts` line 340: pick the URL variant for the chosen protocol. -/
def protoUrl (proto : GitProtocol) (repo : RepositoryConfig) : String :=
  match proto with
  | GitProtocol.ssh => repo.ssh
  | GitProtocol.https => repo.https

/-- The characters of the literal part `github.com/` of the pattern
`/github\.com\/[^\/]+\/[^\/]+/`. -/
def githubPat : List Char := "github.com/".data

/-- Try the regex `github\.com\/[^/]+\/[^/]+` at the current position: on
success return the matched characters and the rest of the input.  The two
`[^/]+` pieces are greedy; since the character right after the first one in
the pattern is `/`, greedy `takeWhile` is exactly the regex semantics. -/
def matchSeg (cs : List Char) : Option (List Char × List Char) :=
  if githubPat.isPrefixOf cs then
    let t := cs.drop githubPat.length
    let org := t.takeWhile fun c => c ≠ '/'
    if org.length = 0 then none
    else
      match t.drop org.length with
      | [] => none
      | c :: u =>
        if c = '/' then
          let rep := u.takeWhile fun c => c ≠ '/'
          if rep.length = 0 then none
          else some (githubPat ++ org ++ '/' :: rep, u.drop rep.length)
        else none
  else none

/-- Leftmost decomposition `(before, matched, rest)` of the input at the
first position where `matchSeg` succeeds. -/
def firstMatch : List Char → Option (List Char × List Char × List Char)
  | [] => none
  | c :: cs =>
    match matchSeg (c :: cs) with
    | some (m, rest) => some ([], m, rest)
    | none => (firstMatch cs).map fun x => (c :: x.1, x.2.1, x.2.2)

/-- JavaScript `String.prototype.replace` with the non-global regex
`/github\.com\/[^/]+\/[^/]+/`: replace the leftmost match only. -/
def replaceFirst (repl : List Char) : List Char → List Char
  | [] => []
  | c :: cs =>
    match matchSeg (c :: cs) with
    | some (_, rest) => repl ++ rest
    | none => c :: replaceFirst repl cs

/-- `init.ts` lines 250-259: `.replace(/github\.com\/[^/]+\/[^/]+/,
`github.com/white-dragon-bevy/${dirName}`)` on a string. -/
def githubReplace (dirName : String) (s : String) : String :=
  String.mk (replaceFirst ("github.com/white-dragon-bevy/" ++ dirName).data s.data)

/-- The `repository` field of a package manifest: a string, or an object
whose `url` property may be absent/empty (both falsy), or some other value
(left untouched by the patch). -/
inductive RepoField where
  | str (s : String)
  | obj (url : Option String) (others : List (String × String))
  | otherValue (tag : String)
  deriving DecidableEq

/-- A package manifest: `name`, optional `repository`, and the remaining
fields (carried opaquely as serialized key/value pairs; the patch never
touches them). -/
structure PkgJson where
  name : String
  repository : Option RepoField
  others : List (String × String)
  deriving DecidableEq

/-- JavaScript truthiness of `pkgJson.repository.url`. -/
def urlTruthy : Option String → Bool
  | none => false
  | some u => u ≠ ""

/-- `init.ts` lines 237-263: the `package.json` patch.  Sets
`name = PROJECT_SCOPE + "/" + dirName`; rewrites a string `repository`, or
the `url` of an object `repository`, through `githubReplace`. -/
def updatePackageJson (projectScope dirName : String) (p : PkgJson) : PkgJson :=
  let p1 : PkgJson := { p with name := projectScope ++ "/" ++ dirName }
  match p1.repository with
  | none => p1
  | some (RepoField.str s) => { p1 with repository := some (RepoField.str (githubReplace dirName s)) }
  | some (RepoField.obj url others) =>
    if urlTruthy url then
      { p1 with repository := some (RepoField.obj (some (githubReplace dirName (url.getD ""))) others) }
    else p1
  | some (RepoField.otherValue _) => p1

/-- A JSON value, as needed for the Rojo project descriptor: an object with
ordered fields, a string, or some other atom. -/
inductive JVal where
  | obj (fields : List (String × JVal))
  | str (s : String)
  | atom (tag : String)

/-- Field lookup in a JSON object ordered-field list. -/
def lookupField : List (String × JVal) → String → Option JVal
  | [], _ => none
  | (k, v) :: rest, key => if k = key then some v else lookupField rest key

/-- JavaScript property assignment `o[k] = v` on a plain object: an existing
key keeps its position with the new value; a fresh key is appended. -/
def setField : List (String × JVal) → String → JVal → List (String × JVal)
  | [], key, v => [(key, v)]
  | (k, w) :: rest, key, v =>
    if k = key then (key, v) :: rest else (k, w) :: setField rest key v

/-- JavaScript `delete o[k]`. -/
def deleteField (fields : List (String × JVal)) (key : String) : List (String × JVal) :=
  fields.filter fun p => p.1 ≠ key

/-- Property read `v[k]` (undefined on non-objects, as with optional chaining). -/
def jget (v : JVal) (key : String) : Option JVal :=
  match v with
  | JVal.obj fields => lookupField fields key
  | _ => none

/-- Chained property reads along a fixed path. -/
def getPath : JVal → List String → Option JVal
  | v, [] => some v
  | v, k :: ks =>
    match jget v k with
    | some w => getPath w ks
    | none => none

/-- Apply `f` to the value reached by the path, in place; if any step of the
chain is missing (the optional-chaining result is undefined), do nothing. -/
def modifyAtPath : JVal → List String → (JVal → JVal) → JVal
  | v, [], f => f v
  | v, k :: ks, f =>
    match v with
    | JVal.obj fields =>
      match lookupField fields k with
      | some child => JVal.obj (setField fields k (modifyAtPath child ks f))
      | none => JVal.obj fields
    | w => w

/-- `init.ts` lines 304-306: the fixed path of the scoped node inside the
descriptor. -/
def whiteDragonPath : List String :=
  ["tree", "ReplicatedStorage", "rbxts_include", "node_modules", "@white-dragon-bevy"]

/-- JavaScript `"..."​.split("/")` on the character list: split at every
`/`, keeping empty pieces. -/
def splitSlash : List Char → List (List Char)
  | [] => [[]]
  | c :: cs =>
    if c = '/' then [] :: splitSlash cs
    else
      match splitSlash cs with
      | [] => [[c]]
      | h :: t => (c :: h) :: t

/-- `pkgJson.name.split("/").pop()`: the text after the final `/`. -/
def stripScope (name : String) : String :=
  String.mk ((splitSlash name.data).getLastD [])

/-- JavaScript `key.startsWith("$")`: the first character is `$`. -/
def startsWithDollar (k : String) : Bool :=
  match k.data with
  | [] => false
  | c :: _ => c = '$'


/-- `init.ts` lines 309-318: take the first child key not prefixed with `$`,
copy its value to `newKey`, then delete the old key. -/
def renameChild (fields : List (String × JVal)) (newKey : String) : List (String × JVal) :=
  match (fields.map Prod.fst).filter (fun k => !(startsWithDollar k)) with
  | [] => fields
  | oldKey :: _ =>
    match lookupField fields oldKey with
    | some v => deleteField (setField fields newKey v) oldKey
    | none => fields

/-- `init.ts` lines 289-323: the `default.project.json` patch.  Sets the
descriptor's `name` to the manifest's new name; for the package template,
renames the first non-`$` child of the scoped node to the scope-stripped
package name. -/
def updateDefaultProject (pj : JVal) (pkgName : String) (template : InitMode) : JVal :=
  let pj1 : JVal :=
    match pj with
    | JVal.obj fs => JVal.obj (setField fs "name" (JVal.str pkgName))
    | v => v
  if template = InitMode.package then
    let newKey := stripScope pkgName
    if newKey ≠ "" then
      modifyAtPath pj1 whiteDragonPath fun node =>
        match node with
        | JVal.obj fields => JVal.obj (renameChild fields newKey)
        | v => v
    else pj1
  else pj1

/-- Consume `\d+` (greedy): fails unless the input starts with a digit;
returns what follows the digit run. -/
def chompDigits (cs : List Char) : Option (List Char) :=
  let ds := cs.takeWhile Char.isDigit
  if ds.length = 0 then none else some (cs.drop ds.length)

/-- Consume a literal `.`. -/
def chompDot : List Char → Option (List Char)
  | [] => none
  | c :: r => if c = '.' then some r else none

/-- The anchored regex `/^\d+\.\d+\.\d+$/` of the yargs check
(`init.ts` line 382). -/
def matchesCompilerVersion (s : String) : Bool :=
  match chompDigits s.data with
  | none => false
  | some r1 =>
    match chompDot r1 with
    | none => false
    | some r2 =>
      match chompDigits r2 with
      | none => false
      | some r3 =>
        match chompDot r3 with
        | none => false
        | some r4 =>
          match chompDigits r4 with
          | none => false
          | some r5 => r5.length = 0

/-- `init.ts` lines 383-385: the validation error message. -/
def invalidVersionMsg : String :=
  "Invalid --compilerVersion. You must specify a version in the form of X.X.X. (i.e. --compilerVersion 1.2.3)"

/-- The observable actions of a run, in order: interactive prompts, the
creation of the destination directory, the template copy, file writes,
spawned commands, directory creations and `git clone` invocations (a clone
carries its URL, destination, and the `--depth` argument). -/
inductive Event where
  | prompt (name : String)
  | mkdirDest
  | copyTemplate
  | writePkg (p : PkgJson)
  | appendGitignore (s : String)
  | runCmd (c : String)
  | writeDescriptor (v : JVal)
  | mkdir (p : FsPath)
  | clone (url : String) (dest : FsPath) (depth : Option Nat)

/-- The `InitError`s the embedded part of the flow can throw. -/
inductive InitError where
  | notADirectory
  | gitMissing (msg : String)
  | conflicts (relPaths : List FsPath)
  | invalidCompilerVersion (msg : String)
  deriving DecidableEq

/-- The CLI options (`InitOptions`), after yargs parsing. -/
structure Argv where
  compilerVersion : Option String
  dir : Option String
  yes : Option Bool
  packageManager : Option PackageManager
  skipBuild : Option Bool
  gitProtocol : Option GitProtocol

/-- The four settled `lookpath` probes, in the order of line 124. -/
structure Probes where
  npm : ProbeOutcome
  pnpm : ProbeOutcome
  yarn : ProbeOutcome
  git : ProbeOutcome

/-- The answers the user would give to the interactive prompts. -/
structure Answers where
  template : InitMode
  packageManager : PackageManager
  gitProtocol : GitProtocol

/-- Everything the run reads from its environment: the resolved destination
(`path.resolve(dir)` is a platform call, modelled by its result `cwd`), the
invocation directory `process.cwd()`, the destination filesystem, the probe
outcomes, the `repositories.json` read (missing / malformed / parsed), the
template directory listing, the template's `package.json`, `.gitignore` and
`default.project.json` contents as read after the copy, the `PROJECT_SCOPE`
constant imported from `../constants`, and the prompt answers. -/
structure World where
  invocationDir : FsPath
  cwd : FsPath
  fs : FS
  probes : Probes
  repoConfigFile : Option (Option RepositoriesConfig)
  templateEntries : List String
  templatePkg : PkgJson
  templateGitignore : Option String
  templateDescriptor : Option JVal
  projectScope : String
  answers : Answers

/-- `init.ts` lines 272-274: append the missing rules, if any. -/
def gitignoreEvents (existing : String) : List Event :=
  if 0 < (requiredRules existing).length then
    [Event.appendGitignore ("\n" ++ joinNL (requiredRules existing) ++ "\n")]
  else []

/-- `init.ts` lines 289-324: the descriptor patch runs only when
`default.project.json` exists at the destination root. -/
def descriptorEvents (descriptor : Option JVal) (pkgName : String) (template : InitMode) : List Event :=
  match descriptor with
  | none => []
  | some pj => [Event.writeDescriptor (updateDefaultProject pj pkgName template)]

/-- `init.ts` lines 339-356: per applicable repository, ensure the parent
directory of the destination exists, then shallow-clone
(`git clone <url> "<dest>" --depth 1`). -/
def cloneEvents (l : List RepositoryConfig) (proto : GitProtocol) (cwd : FsPath) : List Event :=
  l.flatMap fun r =>
    [Event.mkdir (cwd ++ r.destination).dropLast,
     Event.clone (protoUrl proto r) (cwd ++ r.destination) (some 1)]

/-- `init.ts` lines 326-359: the whole clone phase. -/
def cloneEventsOf (loaded : Option RepositoriesConfig) (template : InitMode)
    (proto : GitProtocol) (cwd : FsPath) : List Event :=
  match loaded with
  | none => []
  | some c => cloneEvents (repositoriesToClone c template) proto cwd

/-- The prompt events of lines 154-198, in their fixed order. -/
def promptEvents (templatePrompted pmPrompted protoPrompted : Bool) : List Event :=
  (if templatePrompted then [Event.prompt "template"] else [])
  ++ (if pmPrompted then [Event.prompt "packageManager"] else [])
  ++ (if protoPrompted then [Event.prompt "gitProtocol"] else [])

/-- `init.ts` lines 229-363: everything after the conflict check passes. -/
def mainEvents (w : World) (argv : Argv) (template : InitMode) (pm : PackageManager)
    (proto : GitProtocol) (loaded : Option RepositoriesConfig) : List Event :=
  let dirName := w.cwd.getLastD ""
  let newPkg := updatePackageJson w.projectScope dirName w.templatePkg
  [Event.copyTemplate, Event.writePkg newPkg, Event.runCmd "git init"]
  ++ gitignoreEvents (w.templateGitignore.getD "")
  ++ [Event.runCmd (installCmd pm)]
  ++ descriptorEvents w.templateDescriptor newPkg.name template
  ++ cloneEventsOf loaded template proto w.cwd
  ++ (if argv.skipBuild = some true then [] else [Event.runCmd (packageManagerCommands pm).build])

/-- `init.ts` lines 118-363: the run from the tool probe on, with the events
already performed passed in. -/
def initAfterDir (w : World) (argv : Argv) (initMode : InitMode) (ev : List Event) :
    List Event × Option InitError :=
  if settleAvail w.probes.git = false then
    (ev, some (InitError.gitMissing gitRequiredMsg))
  else
    let pmCount := (if settleAvail w.probes.npm then 1 else 0)
      + (if settleAvail w.probes.pnpm then 1 else 0)
      + (if settleAvail w.probes.yarn then 1 else 0)
    let loaded := loadRepoConfig w.repoConfigFile
    let templatePrompted := initMode = InitMode.none
    let template := if templatePrompted then w.answers.template else initMode
    let pmPrompted := argv.packageManager.isNone && decide (1 < pmCount) && argv.yes.isNone
    let pm := if pmPrompted then w.answers.packageManager
      else argv.packageManager.getD PackageManager.npm
    let protoPrompted := argv.gitProtocol.isNone && hasRepositories loaded && argv.yes.isNone
    let proto := if protoPrompted then w.answers.gitProtocol
      else argv.gitProtocol.getD GitProtocol.ssh
    let ev1 := ev ++ promptEvents templatePrompted pmPrompted protoPrompted
    let conflicts := conflictRelPaths w.fs w.invocationDir w.cwd w.templateEntries
    if 0 < conflicts.length then
      (ev1, some (InitError.conflicts conflicts))
    else
      (ev1 ++ mainEvents w argv template pm proto loaded, none)

/-- `async function init(argv, initMode)` (`init.ts` lines 95-364): prompt
for the directory when absent, create the destination when missing, reject a
non-directory destination, then continue with `initAfterDir`.  The pair is
(events performed, error thrown). -/
def init (w : World) (argv : Argv) (initMode : InitMode) : List Event × Option InitError :=
  let ev0 : List Event := if argv.dir.isNone then [Event.prompt "dir"] else []
  match lookupFS w.fs w.cwd with
  | some FSNode.file => (ev0, some InitError.notADirectory)
  | some FSNode.symlink => (ev0, some InitError.notADirectory)
  | some (FSNode.dir _) => initAfterDir w argv initMode ev0
  | none => initAfterDir w argv initMode (ev0 ++ [Event.mkdirDest])

/-- The command pipeline: the yargs `check` of lines 381-388 runs during
argument parsing, before the handler calls `init` (so before any prompt or
side effect). -/
def runCommand (w : World) (argv : Argv) (initMode : InitMode) : List Event × Option InitError :=
  match argv.compilerVersion with
  | some v =>
    if matchesCompilerVersion v then init w argv initMode
    else ([], some (InitError.invalidCompilerVersion invalidVersionMsg))
  | none => init w argv initMode

/-- A template manifest like the one the package template ships. -/
def samplePkg : PkgJson :=
  { name := "@white-dragon-bevy/bevy_package_template"
    repository := some (RepoField.str "git+https://github.com/white-dragon-bevy/bevy_package_template.git")
    others := [("version", "1.0.0")] }

/-- The scoped node of the template's `default.project.json`: one Rojo
special key and the placeholder package key. -/
def sampleNode : List (String × JVal) :=
  [("$className", JVal.str "Folder"), ("bevy_plugin_example", JVal.atom "subtree")]

/-- A descriptor shaped like the template's `default.project.json`. -/
def sampleDescriptor : JVal :=
  JVal.obj
    [("name", JVal.str "bevy_package_template"),
     ("tree",
      JVal.obj
        [("ReplicatedStorage",
          JVal.obj
            [("rbxts_include",
              JVal.obj [("node_modules", JVal.obj [("@white-dragon-bevy", JVal.obj sampleNode)])])])])]

/-- A run environment whose destination is an existing empty directory: the
four tools probe as found (only npm among the managers), `repositories.json`
is absent, and the template ships the files `init` later reads. -/
def wBase : World :=
  { invocationDir := ["home"]
    cwd := ["home", "proj"]
    fs := [(["home", "proj"], FSNode.dir [])]
    probes :=
      { npm := ProbeOutcome.fulfilled true, pnpm := ProbeOutcome.fulfilled false,
        yarn := ProbeOutcome.fulfilled false, git := ProbeOutcome.fulfilled true }
    repoConfigFile := none
    templateEntries := ["package.json", ".gitignore", "default.project.json", "src"]
    templatePkg := samplePkg
    templateGitignore := some "/node_modules\n"
    templateDescriptor := some sampleDescriptor
    projectScope := "@white-dragon-bevy"
    answers :=
      { template := InitMode.package, packageManager := PackageManager.npm,
        gitProtocol := GitProtocol.ssh } }

/-- A CLI invocation `create-bevy package --dir proj`. -/
def aBase : Argv :=
  { compilerVersion := none, dir := some "proj", yes := none,
    packageManager := none, skipBuild := none, gitProtocol := none }

/-- A destination already holding a conflicting `package.json`. -/
def wConf : World :=
  { wBase with
    fs := [(["home", "proj"], FSNode.dir ["package.json"]),
           (["home", "proj", "package.json"], FSNode.file)] }

/-- One auxiliary repository restricted to the game template. -/
def sampleRepo : RepositoryConfig :=
  { name := "bevy_framework", https := "https://github.com/white-dragon-bevy/bevy_framework.git",
    ssh := "git@github.com:white-dragon-bevy/bevy_framework.git",
    destination := ["vendor", "bevy_framework"], templates := some ["game"] }

/-- C2: a checked path that exists is a conflict iff it is a plain file, a
symbolic link, or a non-empty directory; a missing path is no conflict, and
an existing empty directory is no conflict. -/
theorem conflict_classification (fs : FS) (p : FsPath) :
    (∀ n, lookupFS fs p = some n →
      (isConflict fs p = true ↔
        n = FSNode.file ∨ n = FSNode.symlink ∨ ∃ ch, n = FSNode.dir ch ∧ ch ≠ [])) ∧
    (lookupFS fs p = none → isConflict fs p = false) ∧
    (lookupFS fs p = some (FSNode.dir []) → isConflict fs p = false) := by
  refine ⟨?_, ?_, ?_⟩
  · intro n h
    unfold isConflict
    rw [h]
    cases n with
    | file => simp
    | symlink => simp
    | dir ch =>
      cases ch with
      | nil => simp
      | cons c cs => simp
  · intro h
    unfold isConflict
    rw [h]
  · intro h
    unfold isConflict
    rw [h]
    simp

/-- Witness for C2 at concrete inputs: the pre-existing `package.json` file
is a conflict; the existing empty destination directory is not. -/
theorem conflict_classification_witness :
    isConflict wConf.fs ["home", "proj", "package.json"] = true ∧
    isConflict wBase.fs ["home", "proj"] = false := by
  constructor
  · exact ((conflict_classification wConf.fs ["home", "proj", "package.json"]).1
      FSNode.file (by decide)).mpr (Or.inl rfl)
  · exact (conflict_classification wBase.fs ["home", "proj"]).2.2 (by decide)

theorem isPrefixB_self_append (n t : List Char) : isPrefixB n (n ++ t) = true := by
  induction n with
  | nil => rfl
  | cons c cs ih => simp [isPrefixB, ih]

theorem isPrefixB_append_right {n h : List Char} (t : List Char) (hp : isPrefixB n h = true) :
    isPrefixB n (h ++ t) = true := by
  induction n generalizing h with
  | nil => rfl
  | cons c cs ih =>
    cases h with
    | nil => exact absurd hp (by simp [isPrefixB])
    | cons d ds =>
      simp only [isPrefixB, Bool.and_eq_true, decide_eq_true_eq] at hp
      simp [isPrefixB, hp.1, ih hp.2]

theorem occursIn_nil (hay : List Char) : occursIn [] hay = true := by
  cases hay with
  | nil => rfl
  | cons c cs => simp [occursIn, isPrefixB]

theorem occursIn_self_append (n t : List Char) : occursIn n (n ++ t) = true := by
  cases n with
  | nil => exact occursIn_nil t
  | cons c cs =>
    have h := isPrefixB_self_append (c :: cs) t
    simp only [List.cons_append] at h ⊢
    simp [occursIn, h]

theorem occursIn_append_right {n t : List Char} (h : List Char) (ho : occursIn n t = true) :
    occursIn n (h ++ t) = true := by
  induction h with
  | nil => exact ho
  | cons c cs ih => simp [occursIn, ih]

theorem occursIn_append_left {n h : List Char} (t : List Char) (ho : occursIn n h = true) :
    occursIn n (h ++ t) = true := by
  induction h with
  | nil =>
    cases n with
    | nil => exact occursIn_nil t
    | cons c cs => exact absurd ho (by simp [occursIn, isPrefixB])
  | cons c cs ih =>
    simp only [occursIn, Bool.or_eq_true] at ho
    rcases ho with hp | ho
    · have := isPrefixB_append_right t hp
      simp only [List.cons_append] at this ⊢
      simp [occursIn, this]
    · simp [occursIn, ih ho]

theorem data_append (s t : String) : (s ++ t).data = s.data ++ t.data := rfl

theorem strIncludes_append_left {s : String} (t : String) {sub : String}
    (h : strIncludes s sub = true) : strIncludes (s ++ t) sub = true := by
  unfold strIncludes at h ⊢
  rw [data_append]
  exact occursIn_append_left t.data h

theorem strIncludes_append_right (s : String) {t sub : String}
    (h : strIncludes t sub = true) : strIncludes (s ++ t) sub = true := by
  unfold strIncludes at h ⊢
  rw [data_append]
  exact occursIn_append_right s.data h

theorem strIncludes_self (s : String) : strIncludes s s = true := by
  unfold strIncludes
  have := occursIn_self_append s.data []
  rwa [List.append_nil] at this

theorem strIncludes_joinNL {r : String} {rs : List String} (h : r ∈ rs) :
    strIncludes (joinNL rs) r = true := by
  induction rs with
  | nil => cases h
  | cons a as ih =>
    cases as with
    | nil =>
      rcases List.mem_cons.mp h with h1 | h1
      · subst h1; exact strIncludes_self r
      · cases h1
    | cons b bs =>
      rcases List.mem_cons.mp h with h1 | h1
      · subst h1
        show strIncludes (r ++ "\n" ++ joinNL (b :: bs)) r = true
        exact strIncludes_append_left _ (strIncludes_append_left _ (strIncludes_self r))
      · show strIncludes (a ++ "\n" ++ joinNL (b :: bs)) r = true
        exact strIncludes_append_right _ (ih h1)

theorem strIncludes_gitIgnoreResult (s : String) {r : String} (hr : r ∈ GIT_IGNORE) :
    strIncludes (gitIgnoreResult s) r = true := by
  by_cases h : strIncludes s r = true
  · unfold gitIgnoreResult
    split
    · exact strIncludes_append_left _ (strIncludes_append_left _ (strIncludes_append_left _ h))
    · exact h
  · have hmem : r ∈ requiredRules s := by
      unfold requiredRules
      exact List.mem_filter.mpr ⟨hr, by simp [h]⟩
    have hlen : 0 < (requiredRules s).length := List.length_pos.mpr (List.ne_nil_of_mem hmem)
    unfold gitIgnoreResult
    rw [if_pos hlen]
    exact strIncludes_append_left _ (strIncludes_append_right _ (strIncludes_joinNL hmem))

theorem requiredRules_gitIgnoreResult (s : String) : requiredRules (gitIgnoreResult s) = [] := by
  unfold requiredRules
  rw [List.filter_eq_nil_iff]
  intro r hr
  simp [strIncludes_gitIgnoreResult s hr]

theorem gitIgnoreResult_of_empty {t : String} (h : requiredRules t = []) :
    gitIgnoreResult t = t := by
  unfold gitIgnoreResult
  rw [h]
  simp

/-- C3: the git-init step appends exactly the required rules not already
occurring as substrings, newline-separated; after one run every required
rule occurs, so the step is idempotent; in particular an existing `/out` is
never re-appended while any other missing rule still is. -/
theorem gitignore_merge (s : String) :
    (∀ r, r ∈ requiredRules s ↔ r ∈ GIT_IGNORE ∧ strIncludes s r = false) ∧
    (requiredRules s = [] → gitIgnoreResult s = s) ∧
    (requiredRules s ≠ [] → gitIgnoreResult s = s ++ "\n" ++ joinNL (requiredRules s) ++ "\n") ∧
    (∀ r ∈ GIT_IGNORE, strIncludes (gitIgnoreResult s) r = true) ∧
    gitIgnoreResult (gitIgnoreResult s) = gitIgnoreResult s ∧
    (strIncludes s "/out" = true →
      "/out" ∉ requiredRules s ∧
      ∀ r ∈ GIT_IGNORE, strIncludes s r = false → r ∈ requiredRules s) := by
  refine ⟨?_, ?_, ?_, ?_, ?_, ?_⟩
  · intro r
    unfold requiredRules
    rw [List.mem_filter]
    simp
  · intro h
    exact gitIgnoreResult_of_empty h
  · intro h
    unfold gitIgnoreResult
    rw [if_pos (List.length_pos.mpr h)]
  · intro r hr
    exact strIncludes_gitIgnoreResult s hr
  · exact gitIgnoreResult_of_empty (requiredRules_gitIgnoreResult s)
  · intro hout
    constructor
    · intro hmem
      have := (List.mem_filter.mp hmem).2
      simp [hout] at this
    · intro r hr hnot
      exact List.mem_filter.mpr ⟨hr, by simp [hnot]⟩

/-- Witness for C3 at the concrete content `"/out"`: re-running does not
re-append `/out` but still schedules the other three missing rules. -/
theorem gitignore_merge_witness :
    "/out" ∉ requiredRules "/out" ∧ "/node_modules" ∈ requiredRules "/out" := by
  have h := (gitignore_merge "/out").2.2.2.2.2 (by decide)
  exact ⟨h.1, h.2 "/node_modules" (by decide) (by decide)⟩

theorem takeWhile_append_stop {p : Char → Bool} {d : List Char} {y : Char} (t : List Char)
    (hd : ∀ ch ∈ d, p ch = true) (hy : p y = false) :
    (d ++ y :: t).takeWhile p = d ∧ (d ++ y :: t).drop d.length = y :: t := by
  constructor
  · induction d with
    | nil => simp [List.takeWhile, hy]
    | cons c cs ih =>
      have hc : p c = true := hd c (by simp)
      simp only [List.cons_append, List.takeWhile_cons, hc, if_true]
      rw [ih fun ch hch => hd ch (by simp [hch])]
  · exact List.drop_left d (y :: t)

theorem takeWhile_drop_decomp (p : Char → Bool) (cs : List Char) :
    cs = cs.takeWhile p ++ cs.drop (cs.takeWhile p).length := by
  induction cs with
  | nil => rfl
  | cons c cs ih =>
    by_cases hc : p c = true
    · simp only [List.takeWhile_cons, hc, if_true, List.length_cons, List.drop_succ_cons,
        List.cons_append]
      exact congrArg (c :: ·) ih
    · simp [List.takeWhile_cons, hc]

theorem chompDigits_some {cs r : List Char} (h : chompDigits cs = some r) :
    ∃ d, cs = d ++ r ∧ d ≠ [] ∧ ∀ ch ∈ d, ch.isDigit = true := by
  unfold chompDigits at h
  by_cases hlen : (cs.takeWhile Char.isDigit).length = 0
  · simp [hlen] at h
  · simp only [hlen, if_neg, if_false, Option.some.injEq] at h
    refine ⟨cs.takeWhile Char.isDigit, ?_, ?_, ?_⟩
    · rw [← h]
      exact takeWhile_drop_decomp Char.isDigit cs
    · intro hnil
      rw [hnil] at hlen
      exact hlen rfl
    · intro ch hch
      exact List.mem_takeWhile_imp hch


theorem chompDigits_append_stop {d : List Char} {y : Char} (t : List Char)
    (hd : ∀ ch ∈ d, ch.isDigit = true) (hne : d ≠ []) (hy : y.isDigit = false) :
    chompDigits (d ++ y :: t) = some (y :: t) := by
  obtain ⟨htake, hdrop⟩ := takeWhile_append_stop t hd hy
  unfold chompDigits
  rw [htake, if_neg (by simpa using hne)]
  rw [hdrop]

theorem chompDigits_all {d : List Char} (hd : ∀ ch ∈ d, ch.isDigit = true) (hne : d ≠ []) :
    chompDigits d = some [] := by
  have htake : d.takeWhile Char.isDigit = d := List.takeWhile_eq_self_iff.mpr (by simpa using hd)
  unfold chompDigits
  rw [htake, if_neg (by simpa using hne)]
  rw [List.drop_length]

theorem chompDot_some {r r' : List Char} (h : chompDot r = some r') : r = '.' :: r' := by
  cases r with
  | nil => cases h
  | cons c t =>
    simp only [chompDot] at h
    by_cases hc : c = '.'
    · rw [if_pos hc] at h
      cases h
      rw [hc]
    · rw [if_neg hc] at h
      cases h

theorem chompDot_cons (t : List Char) : chompDot ('.' :: t) = some t := by
  simp [chompDot]

/-- C8: the yargs `check` accepts `--compilerVersion` exactly on strings of
the form digits `.` digits `.` digits (the anchored `\d+\.\d+\.\d+`); any
other value makes the command fail with the validation error before any
event (prompt or side effect) occurs. -/
theorem compilerVersion_check (w : World) (initMode : InitMode) :
    (∀ argv v, argv.compilerVersion = some v →
      (matchesCompilerVersion v = true → runCommand w argv initMode = init w argv initMode) ∧
      (matchesCompilerVersion v = false →
        runCommand w argv initMode = ([], some (InitError.invalidCompilerVersion invalidVersionMsg)))) ∧
    (∀ v : String, matchesCompilerVersion v = true ↔
      ∃ a b c : List Char, v.data = a ++ ('.' :: (b ++ ('.' :: c))) ∧
        a ≠ [] ∧ b ≠ [] ∧ c ≠ [] ∧
        (∀ ch ∈ a, ch.isDigit = true) ∧ (∀ ch ∈ b, ch.isDigit = true) ∧
        (∀ ch ∈ c, ch.isDigit = true)) := by
  constructor
  · intro argv v hv
    constructor
    · intro hm
      unfold runCommand
      rw [hv]
      simp [hm]
    · intro hm
      unfold runCommand
      rw [hv]
      simp [hm]
  · intro v
    constructor
    · intro h
      unfold matchesCompilerVersion at h
      split at h
      · cases h
      rename_i r1 h1
      split at h
      · cases h
      rename_i r2 h2
      split at h
      · cases h
      rename_i r3 h3
      split at h
      · cases h
      rename_i r4 h4
      split at h
      · cases h
      rename_i r5 h5
      have hr5 : r5 = [] := List.length_eq_zero.mp (by simpa using h)
      obtain ⟨a, ha, hane, hadig⟩ := chompDigits_some h1
      obtain ⟨b, hb, hbne, hbdig⟩ := chompDigits_some h3
      obtain ⟨c, hc, hcne, hcdig⟩ := chompDigits_some h5
      refine ⟨a, b, c, ?_, hane, hbne, hcne, hadig, hbdig, hcdig⟩
      rw [ha, chompDot_some h2, hb, chompDot_some h4, hc, hr5, List.append_nil]
    · rintro ⟨a, b, c, hv, hane, hbne, hcne, hadig, hbdig, hcdig⟩
      unfold matchesCompilerVersion
      rw [hv]
      rw [chompDigits_append_stop _ hadig hane (by decide)]
      show (match chompDot ('.' :: (b ++ '.' :: c)) with
        | none => false
        | some r2 => match chompDigits r2 with
          | none => false
          | some r3 => match chompDot r3 with
            | none => false
            | some r4 => match chompDigits r4 with
              | none => false
              | some r5 => decide (r5.length = 0)) = true
      rw [chompDot_cons]
      show (match chompDigits (b ++ '.' :: c) with
        | none => false
        | some r3 => match chompDot r3 with
          | none => false
          | some r4 => match chompDigits r4 with
            | none => false
            | some r5 => decide (r5.length = 0)) = true
      rw [chompDigits_append_stop _ hbdig hbne (by decide)]
      show (match chompDot ('.' :: c) with
        | none => false
        | some r4 => match chompDigits r4 with
          | none => false
          | some r5 => decide (r5.length = 0)) = true
      rw [chompDot_cons]
      show (match chompDigits c with
        | none => false
        | some r5 => decide (r5.length = 0)) = true
      rw [chompDigits_all hcdig hcne]
      rfl

/-- Witness for C8: `"1.2.3"` is accepted; `"abc"` makes the command fail
with the validation error and an empty event list. -/
theorem compilerVersion_check_witness :
    matchesCompilerVersion "1.2.3" = true ∧
    runCommand wBase { aBase with compilerVersion := some "abc" } InitMode.package
      = ([], some (InitError.invalidCompilerVersion invalidVersionMsg)) := by
  constructor
  · exact ((compilerVersion_check wBase InitMode.package).2 "1.2.3").mpr
      ⟨['1'], ['2'], ['3'], rfl, by decide, by decide, by decide, by decide, by decide, by decide⟩
  · exact ((compilerVersion_check wBase InitMode.package).1
      { aBase with compilerVersion := some "abc" } "abc" rfl).2 (by decide)


theorem matchSeg_nil : matchSeg [] = none := by decide

theorem matchSeg_decomp {cs m rest : List Char} (h : matchSeg cs = some (m, rest)) :
    cs = m ++ rest := by
  simp only [matchSeg] at h
  split at h
  case isFalse => cases h
  case isTrue hpre =>
    obtain ⟨t, ht⟩ : githubPat <+: cs := List.isPrefixOf_iff_prefix.mp hpre
    have hdropt : cs.drop githubPat.length = t := by
      rw [← ht]
      exact List.drop_left githubPat t
    rw [hdropt] at h
    split at h
    case isTrue => cases h
    case isFalse horg =>
      split at h
      case h_1 => cases h
      case h_2 c u heq =>
        split at h
        case isFalse => cases h
        case isTrue hc =>
          split at h
          case isTrue => cases h
          case isFalse hrep =>
            rw [Option.some.injEq, Prod.mk.injEq] at h
            obtain ⟨hm, hrest⟩ := h
            have htdec : t = (t.takeWhile fun ch => ch ≠ '/') ++ (c :: u) := by
              conv_lhs => rw [takeWhile_drop_decomp (fun ch => ch ≠ '/') t]
              rw [heq]
            have hudec : u = (u.takeWhile fun ch => ch ≠ '/') ++ u.drop (u.takeWhile fun ch => ch ≠ '/').length :=
              takeWhile_drop_decomp (fun ch => ch ≠ '/') u
            rw [← hm, ← hrest, ← ht]
            conv_lhs => rw [htdec, hc]
            conv_lhs => rw [hudec]
            simp only [List.append_assoc, List.cons_append]

theorem firstMatch_decomp {cs pre m rest : List Char}
    (h : firstMatch cs = some (pre, m, rest)) :
    cs = pre ++ m ++ rest ∧ matchSeg (m ++ rest) = some (m, rest) ∧
      ∀ i < pre.length, matchSeg (cs.drop i) = none := by
  induction cs generalizing pre with
  | nil => cases h
  | cons c cs ih =>
    unfold firstMatch at h
    cases hseg : matchSeg (c :: cs) with
    | some pr =>
      rw [hseg] at h
      obtain ⟨m0, r0⟩ := pr
      rw [Option.some.injEq, Prod.mk.injEq, Prod.mk.injEq] at h
      obtain ⟨hpre, hm, hrest⟩ := h
      subst hpre hm hrest
      have hd := matchSeg_decomp hseg
      refine ⟨by simpa using hd, ?_, ?_⟩
      · rw [← hd]
        exact hseg
      · intro i hi
        cases hi
    | none =>
      rw [hseg] at h
      rw [Option.map_eq_some'] at h
      obtain ⟨⟨p', m', r'⟩, hfm, hx⟩ := h
      rw [Prod.mk.injEq, Prod.mk.injEq] at hx
      obtain ⟨hpre, hm, hrest⟩ := hx
      subst hpre hm hrest
      obtain ⟨hcs, hmseg, hmin⟩ := ih hfm
      refine ⟨by simp [hcs], hmseg, ?_⟩
      intro i hi
      cases i with
      | zero => exact hseg
      | succ j =>
        rw [List.drop_succ_cons]
        exact hmin j (by simpa using hi)

theorem firstMatch_none {cs : List Char} (h : firstMatch cs = none) :
    ∀ i, matchSeg (cs.drop i) = none := by
  induction cs with
  | nil =>
    intro i
    rw [List.drop_nil]
    exact matchSeg_nil
  | cons c cs ih =>
    unfold firstMatch at h
    cases hseg : matchSeg (c :: cs) with
    | some pr => rw [hseg] at h; cases h
    | none =>
      rw [hseg, Option.map_eq_none'] at h
      intro i
      cases i with
      | zero => exact hseg
      | succ j =>
        rw [List.drop_succ_cons]
        exact ih h j

theorem replaceFirst_of_none {cs : List Char} (repl : List Char) (h : firstMatch cs = none) :
    replaceFirst repl cs = cs := by
  induction cs with
  | nil => rfl
  | cons c cs ih =>
    unfold firstMatch at h
    unfold replaceFirst
    cases hseg : matchSeg (c :: cs) with
    | some pr => rw [hseg] at h; cases h
    | none =>
      rw [hseg, Option.map_eq_none'] at h
      exact congrArg (c :: ·) (ih h)

theorem replaceFirst_of_some {cs pre m rest : List Char} (repl : List Char)
    (h : firstMatch cs = some (pre, m, rest)) :
    replaceFirst repl cs = pre ++ repl ++ rest := by
  induction cs generalizing pre with
  | nil => cases h
  | cons c cs ih =>
    unfold firstMatch at h
    unfold replaceFirst
    cases hseg : matchSeg (c :: cs) with
    | some pr =>
      rw [hseg] at h
      obtain ⟨m0, r0⟩ := pr
      rw [Option.some.injEq, Prod.mk.injEq, Prod.mk.injEq] at h
      obtain ⟨hpre, hm, hrest⟩ := h
      subst hpre hm hrest
      simp
    | none =>
      rw [hseg] at h
      rw [Option.map_eq_some'] at h
      obtain ⟨⟨p', m', r'⟩, hfm, hx⟩ := h
      rw [Prod.mk.injEq, Prod.mk.injEq] at hx
      obtain ⟨hpre, hm, hrest⟩ := hx
      subst hpre hm hrest
      show c :: replaceFirst repl cs = (c :: p') ++ repl ++ r'
      simp only [List.cons_append]
      exact congrArg (c :: ·) (ih hfm)

theorem string_eta (s : String) : String.mk s.data = s := rfl

/-- C4 (amended): the manifest patch sets `name` to `<scope>/<basename>` and
leaves every other field unchanged; a `repository` string, or the `url` of a
`repository` object, has its FIRST `github.com/<org>/<repo>` segment (the
leftmost regex match, greedy on non-`/` runs) rewritten to
`github.com/white-dragon-bevy/<basename>`; at most one replacement occurs,
and text before the first match and after it is kept verbatim. -/
theorem packageJson_patch (scope dirName : String) (p : PkgJson) :
    (updatePackageJson scope dirName p).name = scope ++ "/" ++ dirName ∧
    (updatePackageJson scope dirName p).others = p.others ∧
    (p.repository = none → (updatePackageJson scope dirName p).repository = none) ∧
    (∀ s, p.repository = some (RepoField.str s) →
      (updatePackageJson scope dirName p).repository
        = some (RepoField.str (githubReplace dirName s))) ∧
    (∀ s : String, firstMatch s.data = none → githubReplace dirName s = s) ∧
    (∀ (s : String) (pre m rest : List Char), firstMatch s.data = some (pre, m, rest) →
      s.data = pre ++ m ++ rest ∧
      (∀ i < pre.length, matchSeg (s.data.drop i) = none) ∧
      matchSeg (m ++ rest) = some (m, rest) ∧
      (githubReplace dirName s).data
        = pre ++ ("github.com/white-dragon-bevy/" ++ dirName).data ++ rest) ∧
    (∀ url others, p.repository = some (RepoField.obj (some url) others) → url ≠ "" →
      (updatePackageJson scope dirName p).repository
        = some (RepoField.obj (some (githubReplace dirName url)) others)) ∧
    (∀ others, p.repository = some (RepoField.obj none others) →
      (updatePackageJson scope dirName p).repository = p.repository) := by
  refine ⟨?_, ?_, ?_, ?_, ?_, ?_, ?_, ?_⟩
  · unfold updatePackageJson
    cases hr : p.repository with
    | none => simp
    | some rf =>
      cases rf with
      | str s => simp
      | obj url others =>
        by_cases hu : urlTruthy url = true
        · simp [hu]
        · simp [hu]
      | otherValue t => simp
  · unfold updatePackageJson
    cases hr : p.repository with
    | none => simp
    | some rf =>
      cases rf with
      | str s => simp
      | obj url others =>
        by_cases hu : urlTruthy url = true
        · simp [hu]
        · simp [hu]
      | otherValue t => simp
  · intro h
    unfold updatePackageJson
    rw [h]
  · intro s h
    unfold updatePackageJson
    rw [h]
  · intro s h
    unfold githubReplace
    rw [replaceFirst_of_none _ h, string_eta]
  · intro s pre m rest h
    obtain ⟨h1, h2, h3⟩ := firstMatch_decomp h
    refine ⟨h1, h3, h2, ?_⟩
    unfold githubReplace
    rw [replaceFirst_of_some _ h]
  · intro url others h hu
    have hud : urlTruthy (some url) = true := by
      simp [urlTruthy, hu]
    simp [updatePackageJson, h, hud]
  · intro others h
    simp [updatePackageJson, h, urlTruthy]

/-- Witness for C4: on the sample template manifest with basename `proj`,
the name becomes `@white-dragon-bevy/proj` and the repository URL is
rewritten through `githubReplace`. -/
theorem packageJson_patch_witness :
    (updatePackageJson "@white-dragon-bevy" "proj" samplePkg).name
      = "@white-dragon-bevy" ++ "/" ++ "proj" ∧
    (updatePackageJson "@white-dragon-bevy" "proj" samplePkg).repository
      = some (RepoField.str (githubReplace "proj"
          "git+https://github.com/white-dragon-bevy/bevy_package_template.git")) ∧
    (updatePackageJson "@white-dragon-bevy" "proj" samplePkg).others = samplePkg.others := by
  refine ⟨(packageJson_patch "@white-dragon-bevy" "proj" samplePkg).1, ?_, ?_⟩
  · exact (packageJson_patch "@white-dragon-bevy" "proj" samplePkg).2.2.2.1
      "git+https://github.com/white-dragon-bevy/bevy_package_template.git" rfl
  · exact (packageJson_patch "@white-dragon-bevy" "proj" samplePkg).2.1

/-- C4 counterexample: the claim says ANY `github.com/<org>/<repo>` segment
is rewritten, but the non-global regex replaces only the first: with two
segments, the second (`github.com/c/d`) survives verbatim in the output. -/
theorem packageJson_patch_counterexample :
    (updatePackageJson "@white-dragon-bevy" "proj"
      { name := "x",
        repository := some (RepoField.str "github.com/a/b/github.com/c/d"),
        others := [] }).repository
      = some (RepoField.str "github.com/white-dragon-bevy/proj/github.com/c/d") ∧
    strIncludes "github.com/white-dragon-bevy/proj/github.com/c/d" "github.com/c/d" = true := by
  exact ⟨rfl, by decide⟩

theorem lookupField_setField_self (fs : List (String × JVal)) (k : String) (v : JVal) :
    lookupField (setField fs k v) k = some v := by
  induction fs with
  | nil => simp [setField, lookupField]
  | cons p rest ih =>
    obtain ⟨a, w⟩ := p
    by_cases ha : a = k
    · simp [setField, ha, lookupField]
    · simp [setField, ha, lookupField, ih]

theorem lookupField_setField_ne (fs : List (String × JVal)) (k k' : String) (v : JVal)
    (h : k' ≠ k) : lookupField (setField fs k v) k' = lookupField fs k' := by
  have hks : ¬k = k' := fun hh => h hh.symm
  induction fs with
  | nil => simp [setField, lookupField, hks]
  | cons p rest ih =>
    obtain ⟨a, w⟩ := p
    by_cases ha : a = k
    · subst ha
      simp [setField, lookupField, hks]
    · simp only [setField, if_neg ha]
      by_cases ha' : a = k'
      · simp [lookupField, ha']
      · simp [lookupField, ha', ih]

theorem lookupField_deleteField_self (fs : List (String × JVal)) (k : String) :
    lookupField (deleteField fs k) k = none := by
  induction fs with
  | nil => rfl
  | cons p rest ih =>
    obtain ⟨a, w⟩ := p
    by_cases ha : a = k
    · simpa [deleteField, List.filter_cons, ha] using ih
    · simpa [deleteField, List.filter_cons, ha, lookupField] using ih

theorem lookupField_deleteField_ne (fs : List (String × JVal)) (k k' : String)
    (h : k' ≠ k) : lookupField (deleteField fs k) k' = lookupField fs k' := by
  have hks : ¬k = k' := fun hh => h hh.symm
  induction fs with
  | nil => rfl
  | cons p rest ih =>
    obtain ⟨a, w⟩ := p
    by_cases ha : a = k
    · subst ha
      simpa [deleteField, List.filter_cons, lookupField, hks] using ih
    · by_cases ha' : a = k'
      · subst ha'
        simp [deleteField, List.filter_cons, ha, lookupField]
      · simpa [deleteField, List.filter_cons, ha, lookupField, ha'] using ih

theorem lookupField_of_mem_keys {fs : List (String × JVal)} {k : String}
    (h : k ∈ fs.map Prod.fst) : ∃ v, lookupField fs k = some v := by
  induction fs with
  | nil => cases h
  | cons p rest ih =>
    obtain ⟨a, w⟩ := p
    by_cases ha : a = k
    · exact ⟨w, by simp [lookupField, ha]⟩
    · have h' : k ∈ rest.map Prod.fst := by
        rw [List.map_cons, List.mem_cons] at h
        rcases h with h1 | h1
        · exact absurd h1.symm ha
        · exact h1
      obtain ⟨v, hv⟩ := ih h'
      exact ⟨v, by simp [lookupField, ha, hv]⟩

theorem setField_self_eq {fs : List (String × JVal)} {k : String} {v : JVal}
    (h : lookupField fs k = some v) : setField fs k v = fs := by
  induction fs with
  | nil => cases h
  | cons p rest ih =>
    obtain ⟨a, w⟩ := p
    by_cases ha : a = k
    · subst ha
      have h' : w = v := by simpa [lookupField] using h
      simp [setField, h']
    · have h' : lookupField rest k = some v := by simpa [lookupField, ha] using h
      simp [setField, ha, ih h']

theorem getPath_modifyAtPath {v n : JVal} {ks : List String} (f : JVal → JVal)
    (h : getPath v ks = some n) :
    getPath (modifyAtPath v ks f) ks = some (f n) := by
  induction ks generalizing v with
  | nil =>
    simp only [getPath, Option.some.injEq] at h
    subst h
    rfl
  | cons k ks ih =>
    unfold getPath at h
    cases hj : jget v k with
    | none => rw [hj] at h; cases h
    | some w =>
      rw [hj] at h
      cases v with
      | obj fields =>
        have hlf : lookupField fields k = some w := by simpa [jget] using hj
        have hred : modifyAtPath (JVal.obj fields) (k :: ks) f
            = JVal.obj (setField fields k (modifyAtPath w ks f)) := by
          show (match lookupField fields k with
            | some child => JVal.obj (setField fields k (modifyAtPath child ks f))
            | none => JVal.obj fields) = JVal.obj (setField fields k (modifyAtPath w ks f))
          rw [hlf]
        rw [hred]
        have hj2 : jget (JVal.obj (setField fields k (modifyAtPath w ks f))) k
            = some (modifyAtPath w ks f) := by
          simp [jget, lookupField_setField_self]
        show (match jget (JVal.obj (setField fields k (modifyAtPath w ks f))) k with
          | some x => getPath x ks
          | none => none) = some (f n)
        rw [hj2]
        exact ih h
      | str s => simp [jget] at hj
      | atom t => simp [jget] at hj

theorem jget_modifyAtPath_ne (v : JVal) (k0 k : String) (ks : List String)
    (f : JVal → JVal) (h : k0 ≠ k) :
    jget (modifyAtPath v (k :: ks) f) k0 = jget v k0 := by
  cases v with
  | obj fields =>
    cases hlf : lookupField fields k with
    | none =>
      have hred : modifyAtPath (JVal.obj fields) (k :: ks) f = JVal.obj fields := by
        show (match lookupField fields k with
          | some child => JVal.obj (setField fields k (modifyAtPath child ks f))
          | none => JVal.obj fields) = JVal.obj fields
        rw [hlf]
      rw [hred]
    | some child =>
      have hred : modifyAtPath (JVal.obj fields) (k :: ks) f
          = JVal.obj (setField fields k (modifyAtPath child ks f)) := by
        show (match lookupField fields k with
          | some child => JVal.obj (setField fields k (modifyAtPath child ks f))
          | none => JVal.obj fields) = JVal.obj (setField fields k (modifyAtPath child ks f))
        rw [hlf]
      rw [hred]
      simp [jget, lookupField_setField_ne _ _ _ _ h]
  | str s => rfl
  | atom t => rfl

theorem renameChild_spec (fields : List (String × JVal)) (newKey : String)
    {k0 : String} {ks : List String} {v0 : JVal}
    (helig : (fields.map Prod.fst).filter (fun k => !(startsWithDollar k)) = k0 :: ks)
    (hv : lookupField fields k0 = some v0) (hne : k0 ≠ newKey) :
    renameChild fields newKey = deleteField (setField fields newKey v0) k0 ∧
    lookupField (renameChild fields newKey) newKey = some v0 ∧
    lookupField (renameChild fields newKey) k0 = none ∧
    (∀ k, k ≠ k0 → k ≠ newKey →
      lookupField (renameChild fields newKey) k = lookupField fields k) := by
  have hrw : renameChild fields newKey = deleteField (setField fields newKey v0) k0 := by
    unfold renameChild
    rw [helig]
    show (match lookupField fields k0 with
      | some v => deleteField (setField fields newKey v) k0
      | none => fields) = deleteField (setField fields newKey v0) k0
    rw [hv]
  refine ⟨hrw, ?_, ?_, ?_⟩
  · rw [hrw, lookupField_deleteField_ne _ _ _ (fun hh => hne hh.symm),
      lookupField_setField_self]
  · rw [hrw, lookupField_deleteField_self]
  · intro k hk0 hknew
    rw [hrw, lookupField_deleteField_ne _ _ _ hk0, lookupField_setField_ne _ _ _ _ hknew]

theorem getPath_name_set (fs0 : List (String × JVal)) (x : JVal) (rest : List String) :
    getPath (JVal.obj (setField fs0 "name" x)) ("tree" :: rest)
      = getPath (JVal.obj fs0) ("tree" :: rest) := by
  show (match jget (JVal.obj (setField fs0 "name" x)) "tree" with
    | some w => getPath w rest
    | none => none)
    = (match jget (JVal.obj fs0) "tree" with
    | some w => getPath w rest
    | none => none)
  have : jget (JVal.obj (setField fs0 "name" x)) "tree" = jget (JVal.obj fs0) "tree" := by
    simp [jget, lookupField_setField_ne _ _ _ _ (by decide : "tree" ≠ "name")]
  rw [this]

/-- C5 (amended): the descriptor patch runs only when `default.project.json`
exists; it sets the descriptor's `name` to the manifest's new name, and for
the package template it renames the first non-`$`-prefixed child key of the
node at `tree.ReplicatedStorage.rbxts_include.node_modules["@white-dragon-bevy"]`
to the scope-stripped package name, carrying the key's subtree over and
leaving every other key untouched — PROVIDED that first key differs from the
stripped name (otherwise the copy-then-delete removes the entry outright,
see the deletion edge case). -/
theorem descriptor_patch (pkgName : String) (template : InitMode) :
    descriptorEvents none pkgName template = [] ∧
    (∀ pj, descriptorEvents (some pj) pkgName template
      = [Event.writeDescriptor (updateDefaultProject pj pkgName template)]) ∧
    (∀ fs0, template ≠ InitMode.package →
      updateDefaultProject (JVal.obj fs0) pkgName template
        = JVal.obj (setField fs0 "name" (JVal.str pkgName))) ∧
    (∀ fs0 fields k0 ks v0,
      getPath (JVal.obj fs0) whiteDragonPath = some (JVal.obj fields) →
      (fields.map Prod.fst).filter (fun k => !(startsWithDollar k)) = k0 :: ks →
      lookupField fields k0 = some v0 →
      stripScope pkgName ≠ "" →
      k0 ≠ stripScope pkgName →
      ∃ fields2,
        getPath (updateDefaultProject (JVal.obj fs0) pkgName InitMode.package)
          whiteDragonPath = some (JVal.obj fields2) ∧
        jget (updateDefaultProject (JVal.obj fs0) pkgName InitMode.package) "name"
          = some (JVal.str pkgName) ∧
        lookupField fields2 (stripScope pkgName) = some v0 ∧
        lookupField fields2 k0 = none ∧
        (∀ k, k ≠ k0 → k ≠ stripScope pkgName →
          lookupField fields2 k = lookupField fields k)) := by
  refine ⟨rfl, fun pj => rfl, ?_, ?_⟩
  · intro fs0 ht
    unfold updateDefaultProject
    rw [if_neg ht]
  · intro fs0 fields k0 ks v0 hpath helig hv hstrip hne
    have hne' : k0 ≠ stripScope pkgName := hne
    obtain ⟨hrw, hlnew, hlold, hlother⟩ :=
      renameChild_spec fields (stripScope pkgName) helig hv hne'
    refine ⟨renameChild fields (stripScope pkgName), ?_, ?_, hlnew, hlold, hlother⟩
    · unfold updateDefaultProject
      rw [if_pos rfl, if_pos hstrip]
      have hpath1 : getPath (JVal.obj (setField fs0 "name" (JVal.str pkgName)))
          whiteDragonPath = some (JVal.obj fields) := by
        show getPath (JVal.obj (setField fs0 "name" (JVal.str pkgName)))
          ("tree" :: ["ReplicatedStorage", "rbxts_include", "node_modules", "@white-dragon-bevy"])
          = some (JVal.obj fields)
        rw [getPath_name_set]
        exact hpath
      have := getPath_modifyAtPath
        (fun node => match node with
          | JVal.obj fields => JVal.obj (renameChild fields (stripScope pkgName))
          | v => v) hpath1
      simpa using this
    · unfold updateDefaultProject
      rw [if_pos rfl, if_pos hstrip]
      show jget (modifyAtPath (JVal.obj (setField fs0 "name" (JVal.str pkgName)))
        ("tree" :: ["ReplicatedStorage", "rbxts_include", "node_modules", "@white-dragon-bevy"])
        (fun node => match node with
          | JVal.obj fields => JVal.obj (renameChild fields (stripScope pkgName))
          | v => v)) "name" = some (JVal.str pkgName)
      rw [jget_modifyAtPath_ne _ _ _ _ _ (by decide : "name" ≠ "tree")]
      simp [jget, lookupField_setField_self]

/-- Witness for C5 on the template-shaped descriptor with package name
`@white-dragon-bevy/proj`: the placeholder key `bevy_plugin_example` is
renamed to `proj`, the subtree moves with it, and the `$className` key is
untouched. -/
theorem descriptor_patch_witness :
    descriptorEvents none "@white-dragon-bevy/proj" InitMode.package = [] ∧
    ∃ fields2,
      getPath (updateDefaultProject sampleDescriptor "@white-dragon-bevy/proj"
        InitMode.package) whiteDragonPath = some (JVal.obj fields2) ∧
      lookupField fields2 (stripScope "@white-dragon-bevy/proj") = some (JVal.atom "subtree") ∧
      lookupField fields2 "bevy_plugin_example" = none ∧
      lookupField fields2 "$className" = lookupField sampleNode "$className" := by
  constructor
  · exact (descriptor_patch "@white-dragon-bevy/proj" InitMode.package).1
  · obtain ⟨f2, h1, h2, h3, h4, h5⟩ :=
      (descriptor_patch "@white-dragon-bevy/proj" InitMode.package).2.2.2
        [("name", JVal.str "bevy_package_template"),
         ("tree",
          JVal.obj
            [("ReplicatedStorage",
              JVal.obj
                [("rbxts_include",
                  JVal.obj [("node_modules",
                    JVal.obj [("@white-dragon-bevy", JVal.obj sampleNode)])])])])]
        sampleNode "bevy_plugin_example" [] (JVal.atom "subtree")
        rfl rfl rfl (by decide) (by decide)
    exact ⟨f2, h1, h3, h4, h5 "$className" (by decide) (by decide)⟩

/-- C5 counterexample: when the destination basename equals the template's
placeholder key, the "rename" does not preserve the key's subtree — the
scoped node is left with only its `$className` entry, the package entry is
gone. -/
theorem descriptor_patch_counterexample :
    getPath (updateDefaultProject sampleDescriptor "@white-dragon-bevy/bevy_plugin_example"
      InitMode.package) whiteDragonPath
      = some (JVal.obj [("$className", JVal.str "Folder")]) ∧
    lookupField [("$className", JVal.str "Folder")] "bevy_plugin_example" = none := by
  exact ⟨rfl, rfl⟩

/-- C10: when the first non-`$` child key already equals the scope-stripped
package name, the copy-then-delete of `init.ts` lines 315-317 deletes that
key outright: the scoped node keeps no entry for the package. -/
theorem renameChild_same_key (fields : List (String × JVal))
    {k0 : String} {ks : List String} {v0 : JVal}
    (helig : (fields.map Prod.fst).filter (fun k => !(startsWithDollar k)) = k0 :: ks)
    (hv : lookupField fields k0 = some v0) :
    renameChild fields k0 = deleteField fields k0 ∧
    lookupField (renameChild fields k0) k0 = none := by
  have hrw : renameChild fields k0 = deleteField (setField fields k0 v0) k0 := by
    unfold renameChild
    rw [helig]
    show (match lookupField fields k0 with
      | some v => deleteField (setField fields k0 v) k0
      | none => fields) = deleteField (setField fields k0 v0) k0
    rw [hv]
  rw [hrw, setField_self_eq hv]
  exact ⟨rfl, lookupField_deleteField_self _ _⟩

/-- Witness for C10: on the template-shaped node whose placeholder key is
`bevy_plugin_example`, renaming to the same key deletes the entry. -/
theorem renameChild_same_key_witness :
    renameChild sampleNode "bevy_plugin_example" = deleteField sampleNode "bevy_plugin_example" ∧
    lookupField (renameChild sampleNode "bevy_plugin_example") "bevy_plugin_example" = none := by
  have helig : (sampleNode.map Prod.fst).filter (fun k => !(startsWithDollar k))
      = "bevy_plugin_example" :: [] := rfl
  have hv : lookupField sampleNode "bevy_plugin_example" = some (JVal.atom "subtree") := rfl
  exact renameChild_same_key sampleNode helig hv

theorem cloneEvents_sub {l : List RepositoryConfig} {r : RepositoryConfig}
    (proto : GitProtocol) (cwd : FsPath) (h : r ∈ l) :
    ∃ l1 l2, cloneEvents l proto cwd
      = l1 ++ [Event.mkdir (cwd ++ r.destination).dropLast,
               Event.clone (protoUrl proto r) (cwd ++ r.destination) (some 1)] ++ l2 := by
  induction l with
  | nil => cases h
  | cons a as ih =>
    rcases List.mem_cons.mp h with h1 | h1
    · subst h1
      exact ⟨[], cloneEvents as proto cwd, by simp [cloneEvents]⟩
    · obtain ⟨l1, l2, hl⟩ := ih h1
      refine ⟨[Event.mkdir (cwd ++ a.destination).dropLast,
               Event.clone (protoUrl proto a) (cwd ++ a.destination) (some 1)] ++ l1, l2, ?_⟩
      simp [cloneEvents] at hl ⊢
      rw [hl]

/-- C6: an auxiliary repository is cloned iff its `templates` list is
absent, empty, or contains the active template; every clone is issued with
`--depth 1` (shallow) into `path.join(cwd, destination)`, using the `ssh`
URL under the SSH protocol and the `https` URL under HTTPS, and the parent
directory of the destination is created immediately before the clone. -/
theorem clone_phase (c : RepositoriesConfig) (t : InitMode) (proto : GitProtocol) (cwd : FsPath) :
    (∀ r ∈ c.repositories,
      r ∈ repositoriesToClone c t ↔
        r.templates = none ∨ r.templates = some [] ∨
          ∃ ts, r.templates = some ts ∧ t.str ∈ ts) ∧
    (∀ u d dep, Event.clone u d dep ∈ cloneEvents (repositoriesToClone c t) proto cwd ↔
      ∃ r ∈ repositoriesToClone c t,
        u = protoUrl proto r ∧ d = cwd ++ r.destination ∧ dep = some 1) ∧
    (∀ r ∈ repositoriesToClone c t, ∃ l1 l2,
      cloneEvents (repositoriesToClone c t) proto cwd
        = l1 ++ [Event.mkdir (cwd ++ r.destination).dropLast,
                 Event.clone (protoUrl proto r) (cwd ++ r.destination) (some 1)] ++ l2) ∧
    (∀ r, protoUrl GitProtocol.ssh r = r.ssh ∧ protoUrl GitProtocol.https r = r.https) := by
  refine ⟨?_, ?_, ?_, fun r => ⟨rfl, rfl⟩⟩
  · intro r hmem
    unfold repositoriesToClone
    rw [List.mem_filter]
    unfold shouldClone
    cases hts : r.templates with
    | none => simp [hmem]
    | some ts =>
      cases ts with
      | nil => simp [hmem]
      | cons a as =>
        simp only [hmem, true_and, List.length_cons]
        rw [if_neg (by simp)]
        constructor
        · intro hc
          exact Or.inr (Or.inr ⟨a :: as, rfl, by simpa using hc⟩)
        · intro hc
          rcases hc with h1 | h1 | ⟨ts', hts', hmem'⟩
          · cases h1
          · cases h1
          · rw [Option.some.injEq] at hts'
            subst hts'
            simpa using hmem'
  · intro u d dep
    unfold cloneEvents
    rw [List.mem_flatMap]
    constructor
    · rintro ⟨r, hr, hmem⟩
      rcases List.mem_cons.mp hmem with h1 | h1
      · cases h1
      · rcases List.mem_cons.mp h1 with h2 | h2
        · rw [Event.clone.injEq] at h2
          exact ⟨r, hr, h2.1, h2.2.1, h2.2.2⟩
        · cases h2
    · rintro ⟨r, hr, hu, hd, hdep⟩
      subst hu hd hdep
      exact ⟨r, hr, by simp⟩
  · intro r hr
    exact cloneEvents_sub proto cwd hr

/-- Witness for C6: the game-restricted sample repository is not cloned for
the package template; for the game template its shallow SSH clone into
`cwd/vendor/bevy_framework` is among the clone events. -/
theorem clone_phase_witness :
    sampleRepo ∉ repositoriesToClone ⟨[sampleRepo]⟩ InitMode.package ∧
    Event.clone sampleRepo.ssh (["home", "proj"] ++ sampleRepo.destination) (some 1)
      ∈ cloneEvents (repositoriesToClone ⟨[sampleRepo]⟩ InitMode.game)
          GitProtocol.ssh ["home", "proj"] := by
  constructor
  · intro hmem
    have h := ((clone_phase ⟨[sampleRepo]⟩ InitMode.package GitProtocol.ssh
      ["home", "proj"]).1 sampleRepo (by simp)).mp hmem
    rcases h with h1 | h1 | ⟨ts, hts, hmem'⟩
    · exact absurd h1 (by decide)
    · exact absurd h1 (by decide)
    · have : ts = ["game"] := by
        have : sampleRepo.templates = some ["game"] := rfl
        rw [this, Option.some.injEq] at hts
        exact hts.symm
      subst this
      exact absurd hmem' (by decide)
  · exact ((clone_phase ⟨[sampleRepo]⟩ InitMode.game GitProtocol.ssh
      ["home", "proj"]).2.1 _ _ _).mpr ⟨sampleRepo, by decide, rfl, rfl, rfl⟩

theorem prompts_only_dirEv (argv : Argv) :
    ∀ e ∈ (if argv.dir.isNone then [Event.prompt "dir"] else []), ∃ n, e = Event.prompt n := by
  intro e he
  by_cases hd : argv.dir.isNone
  · rw [if_pos hd] at he
    rcases List.mem_singleton.mp he with h
    exact ⟨"dir", h⟩
  · rw [if_neg hd] at he
    cases he

/-- C7 (amended): every probe whose `lookpath` promise rejects — the git
probe included — is treated as the tool being AVAILABLE (fail-open), and
never aborts the settled batch; git is fail-closed only for a probe that
fulfills with "not found": then `init` throws the fatal configuration error,
whose message carries the install URL, before anything beyond the prompts
has happened. -/
theorem probe_failopen (w : World) (argv : Argv) (initMode : InitMode) :
    (∀ b, settleAvail (ProbeOutcome.fulfilled b) = b) ∧
    settleAvail ProbeOutcome.rejected = true ∧
    strIncludes gitRequiredMsg "https://git-scm.com/" = true ∧
    (∀ ds, lookupFS w.fs w.cwd = some (FSNode.dir ds) →
      settleAvail w.probes.git = false →
      (init w argv initMode).2 = some (InitError.gitMissing gitRequiredMsg) ∧
      ∀ e ∈ (init w argv initMode).1, ∃ n, e = Event.prompt n) := by
  refine ⟨fun b => rfl, rfl, by decide, ?_⟩
  intro ds hdir hgit
  have hinit : init w argv initMode
      = (if argv.dir.isNone then [Event.prompt "dir"] else [],
         some (InitError.gitMissing gitRequiredMsg)) := by
    unfold init initAfterDir
    rw [hdir, hgit]
    simp
  rw [hinit]
  exact ⟨rfl, prompts_only_dirEv argv⟩

/-- Witness for C7: with the git probe fulfilled as "not found", `init`
throws the git error having performed only the (empty) prompt list. -/
theorem probe_failopen_witness :
    (init { wBase with probes := { wBase.probes with git := ProbeOutcome.fulfilled false } }
      aBase InitMode.package).2 = some (InitError.gitMissing gitRequiredMsg) ∧
    (init { wBase with probes := { wBase.probes with git := ProbeOutcome.fulfilled false } }
      aBase InitMode.package).1 = [] := by
  have h := (probe_failopen
    { wBase with probes := { wBase.probes with git := ProbeOutcome.fulfilled false } }
    aBase InitMode.package).2.2.2 [] rfl rfl
  exact ⟨h.1, rfl⟩

/-- C7 counterexample: a rejected git probe is treated as git being
installed — the run does not raise the git error — refuting the claim's
equivalence "a rejected probe is treated as not installed" (which, for git,
would have to be fatal). -/
theorem probe_failopen_counterexample :
    settleAvail ProbeOutcome.rejected = true ∧
    (init { wBase with probes := { wBase.probes with git := ProbeOutcome.rejected } }
      aBase InitMode.package).2 = none := by
  exact ⟨rfl, rfl⟩

/-- The shape predicate used by C9: not the git-protocol prompt, not a clone. -/
def NotCloneish (e : Event) : Prop :=
  e ≠ Event.prompt "gitProtocol" ∧ ∀ u d dep, e ≠ Event.clone u d dep

theorem notCloneish_dirEv (argv : Argv) :
    ∀ e ∈ (if argv.dir.isNone then [Event.prompt "dir"] else []), NotCloneish e := by
  intro e he
  obtain ⟨n, hn⟩ := prompts_only_dirEv argv e he
  subst hn
  have : n = "dir" := by
    by_cases hd : argv.dir.isNone
    · rw [if_pos hd] at he
      have := List.mem_singleton.mp he
      exact (Event.prompt.injEq _ _).mp this.symm |>.symm
    · rw [if_neg hd] at he
      cases he
  subst this
  exact ⟨by simp, fun u d dep => by simp⟩

theorem notCloneish_promptEvents (a b : Bool) :
    ∀ e ∈ promptEvents a b false, NotCloneish e := by
  intro e he
  unfold promptEvents at he
  cases a <;> cases b <;> simp at he <;>
    first
    | (subst he; exact ⟨by simp, fun u d dep => by simp⟩)
    | (rcases he with he | he <;> subst he <;> exact ⟨by simp, fun u d dep => by simp⟩)

theorem notCloneish_gitignoreEvents (s : String) :
    ∀ e ∈ gitignoreEvents s, NotCloneish e := by
  intro e he
  unfold gitignoreEvents at he
  split at he
  · have := List.mem_singleton.mp he
    subst this
    exact ⟨by simp, fun u d dep => by simp⟩
  · cases he

theorem notCloneish_descriptorEvents (d : Option JVal) (pk : String) (t : InitMode) :
    ∀ e ∈ descriptorEvents d pk t, NotCloneish e := by
  intro e he
  unfold descriptorEvents at he
  cases d with
  | none => cases he
  | some pj =>
    have := List.mem_singleton.mp he
    subst this
    exact ⟨by simp, fun u d dep => by simp⟩

theorem notCloneish_mainEvents (w : World) (argv : Argv) (t : InitMode)
    (pm : PackageManager) (proto : GitProtocol) :
    ∀ e ∈ mainEvents w argv t pm proto none, NotCloneish e := by
  intro e he
  unfold mainEvents cloneEventsOf at he
  rw [List.mem_append] at he
  rcases he with he | he
  · rw [List.mem_append] at he
    rcases he with he | he
    · rw [List.mem_append] at he
      rcases he with he | he
      · rw [List.mem_append] at he
        rcases he with he | he
        · rw [List.mem_append] at he
          rcases he with he | he
          · rcases List.mem_cons.mp he with h1 | h1
            · subst h1; exact ⟨by simp, fun u d dep => by simp⟩
            rcases List.mem_cons.mp h1 with h2 | h2
            · subst h2; exact ⟨by simp, fun u d dep => by simp⟩
            have := List.mem_singleton.mp h2
            subst this; exact ⟨by simp, fun u d dep => by simp⟩
          · exact notCloneish_gitignoreEvents _ e he
        · have := List.mem_singleton.mp he
          subst this; exact ⟨by simp, fun u d dep => by simp⟩
      · exact notCloneish_descriptorEvents _ _ _ e he
    · cases he
  · split at he
    · cases he
    · have := List.mem_singleton.mp he
      subst this; exact ⟨by simp, fun u d dep => by simp⟩

theorem notCloneish_initAfterDir (w : World) (argv : Argv) (m : InitMode) (ev : List Event)
    (hloaded : loadRepoConfig w.repoConfigFile = none)
    (hev : ∀ e ∈ ev, NotCloneish e) :
    ∀ e ∈ (initAfterDir w argv m ev).1, NotCloneish e := by
  intro e he
  simp only [initAfterDir, hloaded, hasRepositories, Bool.and_false, Bool.false_and] at he
  split at he
  · exact hev e he
  · split at he
    · rw [List.mem_append] at he
      rcases he with he | he
      · exact hev e he
      · exact notCloneish_promptEvents _ _ e he
    · rw [List.mem_append] at he
      rcases he with he | he
      · rw [List.mem_append] at he
        rcases he with he | he
        · exact hev e he
        · exact notCloneish_promptEvents _ _ e he
      · exact notCloneish_mainEvents w argv _ _ _ e he

/-- C9: a missing `repositories.json` and a malformed one are
indistinguishable — both load as "no auxiliary repositories", the whole run
is the same function in either case, no error arises from the configuration,
and whenever the loaded configuration is empty the git-protocol prompt never
appears and no clone is attempted. -/
theorem repoConfig_tolerance (w : World) (argv : Argv) (initMode : InitMode) :
    loadRepoConfig (some none) = none ∧
    loadRepoConfig none = none ∧
    init { w with repoConfigFile := some none } argv initMode
      = init { w with repoConfigFile := none } argv initMode ∧
    (loadRepoConfig w.repoConfigFile = none →
      ∀ e ∈ (init w argv initMode).1,
        e ≠ Event.prompt "gitProtocol" ∧ ∀ u d dep, e ≠ Event.clone u d dep) := by
  refine ⟨rfl, rfl, rfl, ?_⟩
  intro hloaded e he
  simp only [init] at he
  have hmk : ∀ x ∈ (if argv.dir.isNone then [Event.prompt "dir"] else []) ++ [Event.mkdirDest],
      NotCloneish x := by
    intro x hx
    rw [List.mem_append] at hx
    rcases hx with hx | hx
    · exact notCloneish_dirEv argv x hx
    · have := List.mem_singleton.mp hx
      subst this
      exact ⟨by simp, fun u d dep => by simp⟩
  cases hfs : lookupFS w.fs w.cwd with
  | none =>
    rw [hfs] at he
    exact notCloneish_initAfterDir w argv initMode _ hloaded hmk e he
  | some nd =>
    rw [hfs] at he
    cases nd with
    | file => exact notCloneish_dirEv argv e he
    | symlink => exact notCloneish_dirEv argv e he
    | dir ch =>
      exact notCloneish_initAfterDir w argv initMode _ hloaded (notCloneish_dirEv argv) e he

/-- Witness for C9 at a concrete malformed-configuration world: same run as
with the file missing, and the event list of the run contains neither a
git-protocol prompt nor any clone. -/
theorem repoConfig_tolerance_witness :
    init { wBase with repoConfigFile := some none } aBase InitMode.package
      = init { wBase with repoConfigFile := none } aBase InitMode.package ∧
    Event.prompt "gitProtocol"
      ∉ (init { wBase with repoConfigFile := some none } aBase InitMode.package).1 := by
  constructor
  · exact (repoConfig_tolerance wBase aBase InitMode.package).2.2.1
  · intro he
    exact ((repoConfig_tolerance { wBase with repoConfigFile := some none } aBase
      InitMode.package).2.2.2 rfl _ he).1 rfl

theorem prompt_mem_ite {e : Event} {b : Bool} {n : String}
    (he : e ∈ if b then [Event.prompt n] else []) : e = Event.prompt n := by
  split at he
  · exact List.mem_singleton.mp he
  · cases he

theorem prompts_only_promptEvents (a b c : Bool) :
    ∀ e ∈ promptEvents a b c, ∃ n, e = Event.prompt n := by
  intro e he
  unfold promptEvents at he
  rw [List.mem_append, List.mem_append] at he
  rcases he with (he | he) | he
  · exact ⟨"template", prompt_mem_ite he⟩
  · exact ⟨"packageManager", prompt_mem_ite he⟩
  · exact ⟨"gitProtocol", prompt_mem_ite he⟩

theorem initAfterDir_conflict (w : World) (argv : Argv) (m : InitMode) (ev : List Event)
    (hgit : settleAvail w.probes.git = true)
    (hconf : conflictRelPaths w.fs w.invocationDir w.cwd w.templateEntries ≠ []) :
    ∃ a b c, initAfterDir w argv m ev
      = (ev ++ promptEvents a b c,
         some (InitError.conflicts
           (conflictRelPaths w.fs w.invocationDir w.cwd w.templateEntries))) := by
  refine ⟨decide (m = InitMode.none),
    argv.packageManager.isNone
      && decide (1 < ((if settleAvail w.probes.npm = true then 1 else 0)
        + (if settleAvail w.probes.pnpm = true then 1 else 0)
        + (if settleAvail w.probes.yarn = true then 1 else 0)))
      && argv.yes.isNone,
    argv.gitProtocol.isNone && hasRepositories (loadRepoConfig w.repoConfigFile)
      && argv.yes.isNone, ?_⟩
  unfold initAfterDir
  rw [hgit]
  simp [List.length_pos.mpr hconf]

/-- C1 (amended): when the destination directory exists and a conflicting
checked path is present (and git probes as available, so the run reaches the
check), `init` throws the conflict error having performed nothing but
prompts — no write has been issued; the error lists, in check order and
relative to the invocation directory, one entry per conflicting CHECKED
OCCURRENCE: every conflicting path is named at least once, and a path
checked both among the four fixed files and as a template entry (the
template ships `package.json`) is named twice rather than exactly once. -/
theorem conflict_abort (w : World) (argv : Argv) (initMode : InitMode) (ds : List String)
    (hdir : lookupFS w.fs w.cwd = some (FSNode.dir ds))
    (hgit : settleAvail w.probes.git = true)
    (hconf : conflictRelPaths w.fs w.invocationDir w.cwd w.templateEntries ≠ []) :
    (init w argv initMode).2
      = some (InitError.conflicts
          (conflictRelPaths w.fs w.invocationDir w.cwd w.templateEntries)) ∧
    (∀ e ∈ (init w argv initMode).1, ∃ n, e = Event.prompt n) ∧
    (∀ p ∈ checkedPaths w.cwd w.templateEntries, isConflict w.fs p = true →
      relativePath w.invocationDir p
        ∈ conflictRelPaths w.fs w.invocationDir w.cwd w.templateEntries) ∧
    (∀ q ∈ conflictRelPaths w.fs w.invocationDir w.cwd w.templateEntries,
      ∃ p, p ∈ checkedPaths w.cwd w.templateEntries ∧ isConflict w.fs p = true ∧
        q = relativePath w.invocationDir p) := by
  obtain ⟨a, b, c, heq⟩ := initAfterDir_conflict w argv initMode
    (if argv.dir.isNone then [Event.prompt "dir"] else []) hgit hconf
  have hinit : init w argv initMode
      = ((if argv.dir.isNone then [Event.prompt "dir"] else []) ++ promptEvents a b c,
         some (InitError.conflicts
           (conflictRelPaths w.fs w.invocationDir w.cwd w.templateEntries))) := by
    unfold init
    rw [hdir] at *
    exact heq
  refine ⟨by rw [hinit], ?_, ?_, ?_⟩
  · rw [hinit]
    intro e he
    rw [List.mem_append] at he
    rcases he with he | he
    · exact prompts_only_dirEv argv e he
    · exact prompts_only_promptEvents a b c e he
  · intro p hp hc
    unfold conflictRelPaths
    exact List.mem_filterMap.mpr ⟨p, hp, by rw [hc]; simp⟩
  · intro q hq
    obtain ⟨p, hp, hf⟩ := List.mem_filterMap.mp hq
    by_cases hc : isConflict w.fs p = true
    · rw [if_pos hc, Option.some.injEq] at hf
      exact ⟨p, hp, hc, hf.symm⟩
    · rw [if_neg hc] at hf
      cases hf

/-- Witness for C1 at the concrete conflicting world: the run aborts with
the conflict list and the conflicting `package.json`'s relative path is
listed. -/
theorem conflict_abort_witness :
    (init wConf aBase InitMode.package).2
      = some (InitError.conflicts
          (conflictRelPaths wConf.fs wConf.invocationDir wConf.cwd wConf.templateEntries)) ∧
    relativePath wConf.invocationDir ["home", "proj", "package.json"]
      ∈ conflictRelPaths wConf.fs wConf.invocationDir wConf.cwd wConf.templateEntries := by
  have h := conflict_abort wConf aBase InitMode.package ["package.json"] rfl rfl (by decide)
  exact ⟨h.1, h.2.2.1 ["home", "proj", "package.json"] (by decide) (by decide)⟩

/-- C1 counterexample: the destination's `package.json` conflicts; it is
checked both among the four fixed files and as a top-level template entry,
so the error message names its relative path TWICE, refuting "exactly
once". -/
theorem conflict_abort_counterexample :
    (init wConf aBase InitMode.package).2
      = some (InitError.conflicts [["proj", "package.json"], ["proj", "package.json"]]) ∧
    (conflictRelPaths wConf.fs wConf.invocationDir wConf.cwd wConf.templateEntries).count
      ["proj", "package.json"] = 2 := by
  exact ⟨rfl, rfl⟩

end CreateBevy
